import Mathlib

/-!
Verification of the event-platform feed-ingestion core: the content
normalizer (`CleanContent`, `ExtractImages` in internal/telegram/content.go),
the feed decoder date handling (`parse` in pkg/rss/parser.go), the channel
source (`GetPosts` in internal/telegram/telegram.go) and the fetch wrapper
(`ParseURL` in pkg/rss/parser.go).

Strings are embedded as `List Char`.  Each Go regular expression used by the
source is embedded as a hand-written matcher implementing Go's (RE2,
leftmost-first, non-POSIX) semantics for that concrete pattern, including the
greedy/lazy preferences of its subexpressions and the fact that `.` does not
match a newline.  Replacement loops are fuel-based scans (fuel = input
length), so all definitions evaluate by kernel reduction.
-/

set_option maxRecDepth 100000

namespace EP

/-- Strings of the Go program, embedded as lists of characters. -/
abbrev Str := List Char

/-- Convert a Lean string literal to the embedding type. -/
def strL (s : String) : Str := s.toList

/-- Index of the first occurrence of a character, if any. -/
def idxOf (c : Char) : Str → Option Nat
  | [] => none
  | a :: rest => if a = c then some 0 else (idxOf c rest).map (· + 1)

/-- Smallest offset at which `lit` starts, subject to every skipped character
being distinct from a newline.  This is the semantics of a lazy `.*?lit` in a
Go regexp, where `.` does not match `\n`. -/
def findLazy (lit : Str) : Str → Option Nat
  | [] => if lit.isEmpty then some 0 else none
  | c :: rest =>
    if lit.isPrefixOf (c :: rest) then some 0
    else if c = '\n' then none
    else (findLazy lit rest).map (· + 1)

/-- All offsets at which `lit` starts, in ascending order. -/
def occAux (lit : Str) : Str → List Nat
  | [] => if lit.isEmpty then [0] else []
  | c :: rest =>
    if lit.isPrefixOf (c :: rest) then 0 :: (occAux lit rest).map (· + 1)
    else (occAux lit rest).map (· + 1)

/-- Offsets at which `lit` starts with no newline strictly before the offset,
in ascending order: the candidate positions a lazy `.*?` can reach. -/
def occNoNL (lit : Str) : Str → List Nat
  | [] => if lit.isEmpty then [0] else []
  | c :: rest =>
    (if lit.isPrefixOf (c :: rest) then [0] else []) ++
      (if c = '\n' then [] else (occNoNL lit rest).map (· + 1))

/-- Does `sub` occur as a contiguous substring of `s`? -/
def containsSub (s sub : Str) : Bool := !(occAux sub s).isEmpty

/-- First defined value of `f` over a list of candidates, mirroring the order
in which a backtracking regexp engine tries alternatives. -/
def firstSome {α β : Type} (f : α → Option β) : List α → Option β
  | [] => none
  | a :: rest => match f a with
    | some b => some b
    | none => firstSome f rest

/-- Non-overlapping left-to-right replacement of a literal substring,
embedding Go strings.ReplaceAll (used with the nonempty literals
"<br/>", "<br>" and "</a>" in CleanContent). -/
def replaceSubAux (pat repl : Str) : Nat → Str → Str
  | 0, s => s
  | _, [] => []
  | fuel + 1, c :: rest =>
    if pat.isPrefixOf (c :: rest) then
      repl ++ replaceSubAux pat repl fuel ((c :: rest).drop pat.length)
    else c :: replaceSubAux pat repl fuel rest

/-- Go strings.ReplaceAll for a nonempty literal pattern. -/
def replaceSub (pat repl s : Str) : Str := replaceSubAux pat repl s.length s

/-- Generic regexp ReplaceAll scan: `m` reports whether a match starts at the
head of the given suffix, returning the match length and the replacement
text.  Matches are found leftmost-first and do not overlap; the scan resumes
immediately after each match, as Go's Regexp.ReplaceAllString does.  All
matchers below return matches of length at least one. -/
def regexReplaceAux (m : Str → Option (Nat × Str)) : Nat → Str → Str
  | 0, s => s
  | _, [] => []
  | fuel + 1, c :: rest =>
    match m (c :: rest) with
    | some (len, repl) => repl ++ regexReplaceAux m fuel ((c :: rest).drop len)
    | none => c :: regexReplaceAux m fuel rest

/-- Go Regexp.ReplaceAllString for one of the matchers below. -/
def regexReplace (m : Str → Option (Nat × Str)) (s : Str) : Str :=
  regexReplaceAux m s.length s

/-- Matcher for unsupportedMediaRegex =
`<div class="message_media_not_supported"[^>]*>.*?</div>` (replacement "").
After the literal, `[^>]*>` runs to the first '>', then the lazy `.*?</div>`
stops at the earliest `</div>` reachable without crossing a newline. -/
def unsupportedMediaMatchAt (s : Str) : Option (Nat × Str) :=
  let lit := strL "<div class=\"message_media_not_supported\""
  if lit.isPrefixOf s then
    let s1 := s.drop lit.length
    match idxOf '>' s1 with
    | none => none
    | some k =>
      match findLazy (strL "</div>") (s1.drop (k + 1)) with
      | none => none
      | some j => some (lit.length + k + 1 + j + 6, [])
  else none

/-- Matcher for actionLinkRegex =
`<a[^>]*class="message_media_view_in_telegram"[^>]*>.*?</a>` (replacement
"").  The class literal must lie inside the run of non-'>' characters after
`<a`; both `[^>]*` pieces are bounded by the same first '>', so the match
extent does not depend on which occurrence the greedy `[^>]*` picks. -/
def actionLinkMatchAt (s : Str) : Option (Nat × Str) :=
  if (strL "<a").isPrefixOf s then
    let s1 := s.drop 2
    match idxOf '>' s1 with
    | none => none
    | some k0 =>
      if (occAux (strL "class=\"message_media_view_in_telegram\"") s1).any
          (fun o => decide (o ≤ k0)) then
        match findLazy (strL "</a>") (s1.drop (k0 + 1)) with
        | none => none
        | some j => some (2 + k0 + 1 + j + 4, [])
      else none
  else none

/-- Matcher for the inline img-removal regexp `<img[^>]*/?>` (replacement
"").  `[^>]*` runs to the first '>' and `/?` is absorbed by it, so the match
always ends at the first '>' after `<img`. -/
def imgTagMatchAt (s : Str) : Option (Nat × Str) :=
  if (strL "<img").isPrefixOf s then
    match idxOf '>' (s.drop 4) with
    | none => none
    | some k => some (4 + k + 1, [])
  else none

/-- Matcher for the anchor-open regexp `<a[^>]*href="([^"]*)"[^>]*>`
(replacement "").  The greedy `[^>]*` tries the rightmost `href="`
occurrence first; the quoted value `[^"]*` may contain '>', after which
`[^>]*>` runs to the next '>'. -/
def aOpenMatchAt (s : Str) : Option (Nat × Str) :=
  if (strL "<a").isPrefixOf s then
    let s1 := s.drop 2
    let limit := (idxOf '>' s1).getD s1.length
    firstSome (fun o =>
      let s2 := s1.drop (o + 6)
      match idxOf '"' s2 with
      | none => none
      | some q =>
        match idxOf '>' (s2.drop (q + 1)) with
        | none => none
        | some r => some (2 + o + 6 + q + 1 + r + 1, []))
      (((occAux (strL "href=\"") s1).filter (fun o => decide (o ≤ limit))).reverse)
  else none

/-- Matcher for the emoji regexp
`<tg-emoji[^>]*>.*?<b>([^<]*)</b>.*?</tg-emoji>` with replacement `$1`:
the returned text is the captured bold fallback character.  The two lazy
`.*?` pieces advance to later `<b>` candidates when the tail fails. -/
def tgEmojiMatchAt (s : Str) : Option (Nat × Str) :=
  if (strL "<tg-emoji").isPrefixOf s then
    let s1 := s.drop 9
    match idxOf '>' s1 with
    | none => none
    | some k =>
      let s2 := s1.drop (k + 1)
      firstSome (fun j =>
        let s3 := s2.drop (j + 3)
        match idxOf '<' s3 with
        | none => none
        | some ci =>
          if (strL "</b>").isPrefixOf (s3.drop ci) then
            match findLazy (strL "</tg-emoji>") (s3.drop (ci + 4)) with
            | none => none
            | some m => some (9 + k + 1 + j + 3 + ci + 4 + m + 11, s3.take ci)
          else none)
        (occNoNL (strL "<b>") s2)
  else none

/-- Matcher for htmlTagRegex = `<[^>]+>` (replacement ""): a '<', at least
one non-'>' character, then the first '>'. -/
def htmlTagMatchAt (s : Str) : Option (Nat × Str) :=
  match s with
  | [] => none
  | c :: rest =>
    if c = '<' then
      match idxOf '>' rest with
      | some (k + 1) => some (k + 3, [])
      | _ => none
    else none

/-- Matcher for imgSrcRegex = `<img[^>]+src="([^"]+)"`, returning the match
length and the captured URL.  `[^>]+` needs at least one character and is
bounded by the first '>'; greedy, so the rightmost `src="` occurrence is
tried first.  The captured `[^"]+` is the nonempty run up to the next '"'
(it may contain '>'). -/
def imgSrcMatchAt (s : Str) : Option (Nat × Str) :=
  if (strL "<img").isPrefixOf s then
    let s1 := s.drop 4
    let limit := (idxOf '>' s1).getD s1.length
    firstSome (fun o =>
      let s2 := s1.drop (o + 5)
      match idxOf '"' s2 with
      | none => none
      | some q => if q = 0 then none else some (4 + o + 5 + q + 1, s2.take q))
      (((occAux (strL "src=\"") s1).filter
        (fun o => decide (1 ≤ o) && decide (o ≤ limit))).reverse)
  else none

/-- Entity table for the unescaping stage.  Modelled from Go's
html.UnescapeString restricted to the named, semicolon-terminated entities
produced by the feed source and exercised by the repository (the full Go
table additionally knows the remaining HTML5 names and numeric references;
as in Go, an '&' that starts no known entity is left unchanged). -/
def entities : List (Str × Char) :=
  [(strL "&amp;", '&'), (strL "&lt;", '<'), (strL "&gt;", '>'),
   (strL "&quot;", '"'), (strL "&apos;", '\''), (strL "&nbsp;", ' ')]

/-- Scan of the unescaping stage: at '&' try the entity table, otherwise copy
the character. -/
def unescapeAux : Nat → Str → Str
  | 0, s => s
  | _, [] => []
  | fuel + 1, c :: rest =>
    match entities.find? (fun e => e.1.isPrefixOf (c :: rest)) with
    | some e => e.2 :: unescapeAux fuel ((c :: rest).drop e.1.length)
    | none => c :: unescapeAux fuel rest

/-- Embedding of the html.UnescapeString call in CleanContent. -/
def unescapeStr (s : Str) : Str := unescapeAux s.length s

/-- Scan of spaceRegex = `[ \t]+` replaced by a single space: the flag
records whether the scan is inside a horizontal-whitespace run. -/
def collapseAux : Bool → Str → Str
  | _, [] => []
  | inSp, c :: rest =>
    if c = ' ' ∨ c = '\t' then
      if inSp then collapseAux true rest else ' ' :: collapseAux true rest
    else c :: collapseAux false rest

/-- Embedding of spaceRegex.ReplaceAllString(content, " "). -/
def collapseSpaces (s : Str) : Str := collapseAux false s

/-- Go unicode.IsSpace on the Latin-1 range (the characters that occur in
this pipeline; the full Go predicate additionally accepts the higher
Unicode White_Space code points). -/
def isSpaceGo (c : Char) : Bool :=
  c = ' ' || c = '\t' || c = '\n' || c = '\x0B' || c = '\x0C' || c = '\r' ||
    c = '\u0085' || c = ' '

/-- Embedding of strings.TrimSpace: drop whitespace from both ends. -/
def trimSpaceGo (s : Str) : Str :=
  List.rdropWhile isSpaceGo (List.dropWhile isSpaceGo s)

/-- CleanContent through the stages before the final tag-stripping:
unsupported-media removal, action-link removal, the two br rewrites, img
removal, anchor-open removal, `</a>` removal, and emoji unwrapping. -/
def preStripped (s : Str) : Str :=
  let c1 := regexReplace unsupportedMediaMatchAt s
  let c2 := regexReplace actionLinkMatchAt c1
  let c3 := replaceSub (strL "<br/>") (strL "\n") c2
  let c4 := replaceSub (strL "<br>") (strL "\n") c3
  let c5 := regexReplace imgTagMatchAt c4
  let c6 := regexReplace aOpenMatchAt c5
  let c7 := replaceSub (strL "</a>") [] c6
  regexReplace tgEmojiMatchAt c7

/-- CleanContent up to and including the final tag-stripping stage
(htmlTagRegex), i.e. the text the entity-unescaping stage receives. -/
def strippedContent (s : Str) : Str :=
  regexReplace htmlTagMatchAt (preStripped s)

/-- Embedding of CleanContent (internal/telegram/content.go); the package
internal/telegram/channel/content.go contains the identical cleanContent. -/
def CleanContent (s : Str) : Str :=
  trimSpaceGo (collapseSpaces (unescapeStr (strippedContent s)))

/-- Scan of imgSrcRegex.FindAllStringSubmatch collecting the captured URLs
(the submatch slice always has length 2, so the `len(match) > 1` guard in
the source always passes). -/
def extractImagesAux : Nat → Str → List Str
  | 0, _ => []
  | _, [] => []
  | fuel + 1, c :: rest =>
    match imgSrcMatchAt (c :: rest) with
    | some (len, url) => url :: extractImagesAux fuel ((c :: rest).drop len)
    | none => extractImagesAux fuel rest

/-- Embedding of ExtractImages (internal/telegram/content.go). -/
def ExtractImages (s : Str) : List Str := extractImagesAux s.length s

/-- Parsed timestamp value; the Go zero time.Time is embedded as `none` in
the `Option DateTime` fields below.  `nanosecond` holds the optional
fractional second that time.Parse accepts after the seconds field. -/
structure DateTime where
  year : Nat
  month : Nat
  day : Nat
  hour : Nat
  minute : Nat
  second : Nat
  nanosecond : Nat
  zoneOffsetMinutes : Int
deriving Repr, DecidableEq

/-- Feed item (pkg/rss/models.go Item); ParsedDate is `none` for the Go zero
time.Time, which is its value after XML decoding. -/
structure Item where
  title : Str
  link : Str
  description : Str
  pubDate : Str
  parsedDate : Option DateTime
deriving Repr, DecidableEq

/-- Feed channel (pkg/rss/models.go Channel). -/
structure Channel where
  title : Str
  link : Str
  description : Str
  items : List Item
deriving Repr, DecidableEq

/-- Top-level document (pkg/rss/models.go RSS). -/
structure RSS where
  channel : Channel
deriving Repr, DecidableEq

/-- Three-letter day names accepted for the `Mon` layout element.  Go's
name matching is ASCII case-insensitive. -/
def shortDayNames : List Str :=
  [strL "Sun", strL "Mon", strL "Tue", strL "Wed", strL "Thu", strL "Fri",
   strL "Sat"]

/-- Three-letter month names for the `Jan` layout element, in order. -/
def shortMonthNames : List Str :=
  [strL "Jan", strL "Feb", strL "Mar", strL "Apr", strL "May", strL "Jun",
   strL "Jul", strL "Aug", strL "Sep", strL "Oct", strL "Nov", strL "Dec"]

/-- ASCII case folding used by Go's layout-name matching. -/
def foldChar (c : Char) : Char :=
  if 'A' ≤ c ∧ c ≤ 'Z' then Char.ofNat (c.toNat + 32) else c

/-- Case-insensitive match of a layout name against the head of the input. -/
def nameMatches (name s : Str) : Bool :=
  (name.map foldChar).isPrefixOf (s.map foldChar)

/-- Digit value of an ASCII character, if it is a digit. -/
def digitVal (c : Char) : Option Nat :=
  if '0' ≤ c ∧ c ≤ '9' then some (c.toNat - 48) else none

/-- Read exactly two digits (a fixed-width layout element such as `02`). -/
def getnum2 : Str → Option (Nat × Str)
  | a :: b :: rest =>
    match digitVal a, digitVal b with
    | some x, some y => some (10 * x + y, rest)
    | _, _ => none
  | _ => none

/-- Read one or two digits (a variable-width element such as `15`). -/
def getnum12 : Str → Option (Nat × Str)
  | a :: b :: rest =>
    match digitVal a, digitVal b with
    | some x, some y => some (10 * x + y, rest)
    | some x, none => some (x, b :: rest)
    | _, _ => none
  | [a] => (digitVal a).map (fun x => (x, []))
  | [] => none

/-- Read exactly four digits (the `2006` year element). -/
def getnum4 : Str → Option (Nat × Str)
  | a :: b :: c :: d :: rest =>
    match digitVal a, digitVal b, digitVal c, digitVal d with
    | some w, some x, some y, some z => some (1000 * w + 100 * x + 10 * y + z, rest)
    | _, _, _, _ => none
  | _ => none

/-- Number of days in a month, with the Gregorian leap rule, as Go's
date validation uses. -/
def daysIn (month year : Nat) : Nat :=
  if month = 2 then
    if year % 4 = 0 ∧ (year % 100 ≠ 0 ∨ year % 400 = 0) then 29 else 28
  else if month = 4 ∨ month = 6 ∨ month = 9 ∨ month = 11 then 30
  else 31

/-- Index (1-based month) of a matching month name. -/
def monthOf (s : Str) : Option (Nat × Str) :=
  (List.range 12).findSome? (fun i =>
    match shortMonthNames[i]? with
    | some nm => if nameMatches nm s then some (i + 1, s.drop 3) else none
    | none => none)

/-- Value of a run of ASCII digits read left to right. -/
def digitsVal (ds : Str) : Nat :=
  ds.foldl (fun acc c => 10 * acc + (c.toNat - 48)) 0

/-- Nanoseconds denoted by the digit run of a fractional second: the first
nine digits are kept and scaled to nanoseconds, further digits are
discarded, exactly as Go's parseNanoseconds does. -/
def nsecOfFrac (digits : Str) : Nat :=
  let ds := digits.take 9
  digitsVal ds * 10 ^ (9 - ds.length)

/-- Optional fractional second immediately after the seconds field: Go's
time.Parse accepts a period or comma followed by at least one digit here
even though the layout does not signify its presence, consuming the
separator and every following digit; any other input is left untouched
with zero nanoseconds. -/
def fracSecond (s : Str) : Nat × Str :=
  match s with
  | c :: d :: rest =>
    if (c = '.' ∨ c = ',') ∧ (digitVal d).isSome then
      ((nsecOfFrac ((d :: rest).takeWhile (fun x => (digitVal x).isSome))),
        (d :: rest).dropWhile (fun x => (digitVal x).isSome))
    else (0, s)
  | _ => (0, s)

/-- Embedding of time.Parse with the fixed time.RFC1123Z layout
`Mon, 02 Jan 2006 15:04:05 -0700`: day name, literal ", ", two-digit day,
month name, four-digit year, one-or-two-digit hour, two-digit minute and
second (with Go's optional fractional second after it), and a signed
four-digit zone offset; the whole input must be consumed and the field
ranges must be valid, otherwise the parse fails. -/
def goTimeParseRFC1123Z (s : Str) : Option DateTime :=
  if shortDayNames.any (fun nm => nameMatches nm s) then
    let s := s.drop 3
    if (strL ", ").isPrefixOf s then
      let s := s.drop 2
      match getnum2 s with
      | none => none
      | some (day, s) =>
        if (strL " ").isPrefixOf s then
          match monthOf (s.drop 1) with
          | none => none
          | some (month, s) =>
            if (strL " ").isPrefixOf s then
              match getnum4 (s.drop 1) with
              | none => none
              | some (year, s) =>
                if (strL " ").isPrefixOf s then
                  match getnum12 (s.drop 1) with
                  | none => none
                  | some (hour, s) =>
                    if (strL ":").isPrefixOf s then
                      match getnum2 (s.drop 1) with
                      | none => none
                      | some (minute, s) =>
                        if (strL ":").isPrefixOf s then
                          match getnum2 (s.drop 1) with
                          | none => none
                          | some (second, s0) =>
                            let nsec := (fracSecond s0).1
                            let s := (fracSecond s0).2
                            if (strL " ").isPrefixOf s then
                              match s.drop 1 with
                              | sign :: z =>
                                if sign = '+' ∨ sign = '-' then
                                  match getnum2 z with
                                  | none => none
                                  | some (zh, z) =>
                                    match getnum2 z with
                                    | none => none
                                    | some (zm, z) =>
                                      if z = [] ∧ 1 ≤ day ∧
                                          day ≤ daysIn month year ∧
                                          hour < 24 ∧ minute < 60 ∧
                                          second < 60 then
                                        some ⟨year, month, day, hour, minute,
                                          second, nsec,
                                          (if sign = '-' then -1 else 1) *
                                            (zh * 60 + zm)⟩
                                      else none
                                else none
                              | [] => none
                            else none
                        else none
                    else none
                else none
            else none
        else none
    else none
  else none

/-- Date-filling step of the loop in parse (pkg/rss/parser.go lines 33-40):
a nonempty pubDate that parses under the single fixed RFC1123Z layout sets
ParsedDate; otherwise the item is left untouched. -/
def fillItem (it : Item) : Item :=
  if it.pubDate ≠ [] then
    match goTimeParseRFC1123Z it.pubDate with
    | some t => { it with parsedDate := some t }
    | none => it
  else it

/-- Embedding of parse (pkg/rss/parser.go): the XML decoding itself is
standard-library code, so its outcome is taken as the argument; a decoder
error aborts with the wrapped message, otherwise every item's date is
filled in and the channel is returned. -/
def parse (decoded : Except Str RSS) : Except Str Channel :=
  match decoded with
  | .error e => .error (strL "failed to decode XML: " ++ e)
  | .ok rss => .ok { rss.channel with items := rss.channel.items.map fillItem }

/-- An HTTP response as ParseURL observes it. -/
structure HTTPResponse where
  status : Nat
  body : Str
deriving Repr, DecidableEq

/-- Embedding of ParseURL (pkg/rss/parser.go): `fetched` is the outcome of
http.Get (error cause, or a response), and `decodeXML` abstracts the
standard-library XML decoder applied to the body.  A fetch error and a
non-200 status abort with their respective messages before any decoding. -/
def ParseURL (decodeXML : Str → Except Str RSS) (fetched : Except Str HTTPResponse) :
    Except Str Channel :=
  match fetched with
  | .error cause => .error (strL "failed to fetch URL: " ++ cause)
  | .ok resp =>
    if resp.status = 200 then parse (decodeXML resp.body)
    else .error (strL "HTTP error: " ++ strL (Nat.repr resp.status))

/-- Normalized post (internal/telegram/models.go Post). -/
structure Post where
  link : Str
  content : Str
  images : List Str
  publishedAt : Option DateTime
  channelName : Str
deriving Repr, DecidableEq

/-- Mapping from a decoded feed item to a Post, as built in the loop of
GetPosts (internal/telegram/telegram.go lines 34-42). -/
def postOfItem (name : Str) (it : Item) : Post :=
  ⟨it.link, CleanContent it.description, ExtractImages it.description,
    it.parsedDate, name⟩

/-- Embedding of GetPosts (internal/telegram/telegram.go): `fetched` is the
outcome of rss.ParseURL on the bridge address built from the channel name;
on success every item is mapped to a Post in order. -/
def GetPosts (name : Str) (fetched : Except Str Channel) : Except Str (List Post) :=
  match fetched with
  | .error e => .error (strL "parse RSS by URL: " ++ e)
  | .ok ch => .ok (ch.items.map (postOfItem name))

/-- Does any suffix of the text start a match of the given matcher?  Used to
state that a pattern no longer occurs anywhere in a string. -/
def anyMatch (m : Str → Option (Nat × Str)) : Str → Bool
  | [] => (m []).isSome
  | c :: rest => (m (c :: rest)).isSome || anyMatch m rest

/-- Adjacent-character relation of a space-collapsed string: no two
consecutive spaces. -/
def spaceRel (a b : Char) : Prop := ¬(a = ' ' ∧ b = ' ')

/-- A string whose horizontal whitespace is already collapsed: no tab and no
two adjacent spaces. -/
structure Collapsed (t : Str) : Prop where
  noTab : '\t' ∉ t
  chain : t.Chain' spaceRel

/-- A string with no leading or trailing whitespace. -/
def Trimmed (t : Str) : Prop :=
  (∀ c, t.head? = some c → isSpaceGo c = false) ∧
    (∀ c, t.reverse.head? = some c → isSpaceGo c = false)

/-- Key invariant of the output of the tag-stripping stage: every '<' is
immediately followed by '>' or has no '>' anywhere after it, so no
`<[^>]+>` match can remain. -/
def BracketOK : Str → Prop
  | [] => True
  | c :: rest => (c = '<' → rest.head? = some '>' ∨ '>' ∉ rest) ∧ BracketOK rest

theorem idxOf_eq_none_iff {c : Char} {l : Str} : idxOf c l = none ↔ c ∉ l := by
  induction l with
  | nil => simp [idxOf]
  | cons a rest ih =>
    by_cases hac : a = c
    · subst hac
      simp [idxOf]
    · simp only [idxOf, if_neg hac, Option.map_eq_none', ih, List.mem_cons,
        not_or]
      exact ⟨fun h => ⟨fun hca => hac hca.symm, h⟩, And.right⟩

theorem idxOf_isSome_iff_mem {c : Char} {l : Str} :
    (idxOf c l).isSome = true ↔ c ∈ l := by
  rw [Option.isSome_iff_ne_none, Ne, idxOf_eq_none_iff, not_not]

theorem idxOf_eq_zero_iff {c : Char} {l : Str} :
    idxOf c l = some 0 ↔ l.head? = some c := by
  cases l with
  | nil => simp [idxOf]
  | cons a rest =>
    by_cases hac : a = c
    · subst hac
      simp [idxOf]
    · simp [idxOf, hac, Option.map_eq_some', Ne.symm hac]

theorem idxOf_lt_length {c : Char} {l : Str} {k : Nat}
    (h : idxOf c l = some k) : k < l.length := by
  induction l generalizing k with
  | nil => simp [idxOf] at h
  | cons a rest ih =>
    by_cases hac : a = c
    · subst hac
      simp [idxOf] at h
      simp only [List.length_cons]
      omega
    · simp [idxOf, hac, Option.map_eq_some'] at h
      obtain ⟨j, hj, rfl⟩ := h
      have := ih hj
      simp only [List.length_cons]
      omega

theorem idxOf_succ_shape {c : Char} {l : Str} (hm : c ∈ l)
    (hh : ∀ d, l.head? = some d → d ≠ c) : ∃ k, idxOf c l = some (k + 1) := by
  have hs : (idxOf c l).isSome = true := idxOf_isSome_iff_mem.mpr hm
  obtain ⟨j, hj⟩ := Option.isSome_iff_exists.mp hs
  cases j with
  | zero =>
    exact absurd rfl (hh c (idxOf_eq_zero_iff.mp hj))
  | succ k => exact ⟨k, hj⟩

theorem htmlTagMatchAt_nil : htmlTagMatchAt [] = none := rfl

theorem htmlTagMatchAt_cons_ne {c : Char} {rest : Str} (hc : c ≠ '<') :
    htmlTagMatchAt (c :: rest) = none := by
  simp [htmlTagMatchAt, hc]

theorem htmlTagMatchAt_some {s : Str} {len : Nat} {repl : Str}
    (h : htmlTagMatchAt s = some (len, repl)) :
    repl = [] ∧ ∃ rest k, s = '<' :: rest ∧ idxOf '>' rest = some (k + 1) ∧
      len = k + 3 := by
  cases s with
  | nil => simp [htmlTagMatchAt] at h
  | cons c rest =>
    by_cases hc : c = '<'
    · subst hc
      simp only [htmlTagMatchAt, if_pos rfl] at h
      revert h
      cases hidx : idxOf '>' rest with
      | none => intro h; cases h
      | some k =>
        cases k with
        | zero => intro h; cases h
        | succ k =>
          intro h
          obtain ⟨h1, h2⟩ := Prod.mk.injEq .. ▸ Option.some.inj h
          exact ⟨h2.symm, rest, k, rfl, hidx, h1.symm⟩
    · rw [htmlTagMatchAt_cons_ne hc] at h
      cases h

theorem htmlTagMatchAt_lt_none {rest : Str}
    (h : htmlTagMatchAt ('<' :: rest) = none) :
    idxOf '>' rest = none ∨ idxOf '>' rest = some 0 := by
  simp only [htmlTagMatchAt, if_pos rfl] at h
  revert h
  cases hidx : idxOf '>' rest with
  | none => exact fun _ => Or.inl rfl
  | some k =>
    cases k with
    | zero => exact fun _ => Or.inr rfl
    | succ k => intro h; cases h

theorem regexReplaceAux_zero (m : Str → Option (Nat × Str)) (s : Str) :
    regexReplaceAux m 0 s = s := by
  cases s <;> rfl

theorem strip_sublist : ∀ (f : Nat) (t : Str),
    (regexReplaceAux htmlTagMatchAt f t).Sublist t := by
  intro f
  induction f with
  | zero => intro t; rw [regexReplaceAux_zero]
  | succ f ih =>
    intro t
    cases t with
    | nil => exact List.Sublist.refl []
    | cons c rest =>
      cases h : htmlTagMatchAt (c :: rest) with
      | none =>
        simpa [regexReplaceAux, h] using (ih rest).cons₂ c
      | some p =>
        obtain ⟨len, repl⟩ := p
        obtain ⟨hrepl, _, _, _, _, _⟩ := htmlTagMatchAt_some h
        subst hrepl
        simp only [regexReplaceAux, h, List.nil_append]
        exact (ih _).trans (List.drop_sublist len (c :: rest))

theorem bracketOK_strip : ∀ (f : Nat) (t : Str), t.length ≤ f →
    BracketOK (regexReplaceAux htmlTagMatchAt f t) := by
  intro f
  induction f with
  | zero =>
    intro t ht
    have ht0 : t = [] := List.length_eq_zero.mp (Nat.le_zero.mp ht)
    subst ht0
    rw [regexReplaceAux_zero]
    exact trivial
  | succ f ih =>
    intro t ht
    cases t with
    | nil => exact trivial
    | cons c rest =>
      have hrest : rest.length ≤ f := by
        simpa using Nat.succ_le_succ_iff.mp ht
      cases h : htmlTagMatchAt (c :: rest) with
      | some p =>
        obtain ⟨len, repl⟩ := p
        obtain ⟨hrepl, rest', k, hs, _, hlen⟩ := htmlTagMatchAt_some h
        subst hrepl
        simp only [regexReplaceAux, h, List.nil_append]
        apply ih
        have : ((c :: rest).drop len).length = (c :: rest).length - len := by
          simp
        rw [this]
        have : (c :: rest).length = rest.length + 1 := by simp
        omega
      | none =>
        simp only [regexReplaceAux, h]
        refine ⟨fun hc => ?_, ih rest hrest⟩
        subst hc
        rcases htmlTagMatchAt_lt_none h with hnone | hzero
        · right
          have hnotin : '>' ∉ rest := idxOf_eq_none_iff.mp hnone
          intro hin
          exact hnotin ((strip_sublist f rest).subset hin)
        · left
          have hhead : rest.head? = some '>' := idxOf_eq_zero_iff.mp hzero
          cases rest with
          | nil => cases hhead
          | cons d r2 =>
            have hd : d = '>' := by simpa using hhead
            subst hd
            have hf : 1 ≤ f := by simp at hrest; omega
            cases f with
            | zero => omega
            | succ f2 =>
              have hgt : htmlTagMatchAt ('>' :: r2) = none :=
                htmlTagMatchAt_cons_ne (by decide)
              simp [regexReplaceAux, hgt]

theorem anyMatch_of_bracketOK : ∀ {t : Str}, BracketOK t →
    anyMatch htmlTagMatchAt t = false := by
  intro t
  induction t with
  | nil => intro _; rfl
  | cons c rest ih =>
    intro hb
    obtain ⟨h1, h2⟩ : (c = '<' → rest.head? = some '>' ∨ '>' ∉ rest) ∧
        BracketOK rest := hb
    have hrest := ih h2
    have hnone : htmlTagMatchAt (c :: rest) = none := by
      by_cases hc : c = '<'
      · subst hc
        rcases h1 rfl with hh | hn
        · simp [htmlTagMatchAt, idxOf_eq_zero_iff.mpr hh]
        · simp [htmlTagMatchAt, idxOf_eq_none_iff.mpr hn]
      · exact htmlTagMatchAt_cons_ne hc
    simp [anyMatch, hnone, hrest]

theorem bracketOK_regexReplace (t : Str) :
    BracketOK (regexReplace htmlTagMatchAt t) :=
  bracketOK_strip t.length t le_rfl

theorem anyMatch_mono {m1 m2 : Str → Option (Nat × Str)}
    (h : ∀ s, (m1 s).isSome = true → (m2 s).isSome = true) :
    ∀ t, anyMatch m2 t = false → anyMatch m1 t = false := by
  intro t
  induction t with
  | nil =>
    intro h2
    simp only [anyMatch] at h2 ⊢
    cases hm : (m1 []).isSome with
    | false => rfl
    | true => rw [h [] hm] at h2; cases h2
  | cons c rest ih =>
    intro h2
    simp only [anyMatch, Bool.or_eq_false_iff] at h2 ⊢
    obtain ⟨ha, hb⟩ := h2
    refine ⟨?_, ih hb⟩
    cases hm : (m1 (c :: rest)).isSome with
    | false => rfl
    | true => rw [h _ hm] at ha; cases ha

theorem htmlTag_isSome_head {rest0 : Str} {d : Char} (hd : d ≠ '>')
    (hr : rest0.head? = some d) (hmem : '>' ∈ rest0) :
    (htmlTagMatchAt ('<' :: rest0)).isSome = true := by
  obtain ⟨k, hk⟩ := idxOf_succ_shape hmem (fun e he => by
    rw [hr] at he
    injection he with h1
    rw [← h1]
    exact hd)
  simp [htmlTagMatchAt, hk]

theorem unsupported_implies_tag (s : Str)
    (h : (unsupportedMediaMatchAt s).isSome = true) :
    (htmlTagMatchAt s).isSome = true := by
  simp only [unsupportedMediaMatchAt] at h
  split at h
  case isFalse => simp at h
  case isTrue hp =>
    obtain ⟨t, ht⟩ := List.isPrefixOf_iff_prefix.mp hp
    split at h
    case h_1 => simp at h
    case h_2 k hidx =>
      rw [← ht, List.drop_left] at hidx
      have hmem : '>' ∈ t := by
        have := idxOf_isSome_iff_mem (c := '>') (l := t)
        rw [hidx] at this
        exact this.mp rfl
      have hs : s = '<' :: (strL "div class=\"message_media_not_supported\"" ++ t) := by
        rw [← ht]; rfl
      rw [hs]
      exact htmlTag_isSome_head (d := 'd') (by decide) rfl
        (List.mem_append_of_mem_right _ hmem)

theorem actionLink_implies_tag (s : Str)
    (h : (actionLinkMatchAt s).isSome = true) :
    (htmlTagMatchAt s).isSome = true := by
  simp only [actionLinkMatchAt] at h
  split at h
  case isFalse => simp at h
  case isTrue hp =>
    obtain ⟨t, ht⟩ := List.isPrefixOf_iff_prefix.mp hp
    split at h
    case h_1 => simp at h
    case h_2 k0 hidx =>
      rw [← ht] at hidx
      have hdrop : (strL "<a" ++ t).drop 2 = t := List.drop_left' (by rfl)
      rw [hdrop] at hidx
      have hmem : '>' ∈ t := by
        have := idxOf_isSome_iff_mem (c := '>') (l := t)
        rw [hidx] at this
        exact this.mp rfl
      have hs : s = '<' :: ('a' :: t) := by rw [← ht]; rfl
      rw [hs]
      exact htmlTag_isSome_head (d := 'a') (by decide) rfl (List.mem_cons_of_mem _ hmem)

theorem imgTag_implies_tag (s : Str)
    (h : (imgTagMatchAt s).isSome = true) :
    (htmlTagMatchAt s).isSome = true := by
  simp only [imgTagMatchAt] at h
  split at h
  case isFalse => simp at h
  case isTrue hp =>
    obtain ⟨t, ht⟩ := List.isPrefixOf_iff_prefix.mp hp
    split at h
    case h_1 => simp at h
    case h_2 k hidx =>
      rw [← ht] at hidx
      have hdrop : (strL "<img" ++ t).drop 4 = t := List.drop_left' (by rfl)
      rw [hdrop] at hidx
      have hmem : '>' ∈ t := by
        have := idxOf_isSome_iff_mem (c := '>') (l := t)
        rw [hidx] at this
        exact this.mp rfl
      have hs : s = '<' :: ('i' :: 'm' :: 'g' :: t) := by rw [← ht]; rfl
      rw [hs]
      refine htmlTag_isSome_head (d := 'i') (by decide) rfl ?_
      exact List.mem_cons_of_mem _ (List.mem_cons_of_mem _ (List.mem_cons_of_mem _ hmem))

theorem isPrefixOf_false_of_not_mem {lit s : Str} {c : Char}
    (hh : lit.head? = some c) (hn : c ∉ s) : lit.isPrefixOf s = false := by
  cases hp : lit.isPrefixOf s
  · rfl
  · exfalso
    have hpre := List.isPrefixOf_iff_prefix.mp hp
    cases lit with
    | nil => cases hh
    | cons a rest =>
      have ha : a = c := by injection hh
      subst ha
      exact hn (hpre.subset (List.mem_cons_self a rest))

theorem unsupportedMediaMatchAt_no_lt {s : Str} (h : '<' ∉ s) :
    unsupportedMediaMatchAt s = none := by
  have hp : (strL "<div class=\"message_media_not_supported\"").isPrefixOf s = false :=
    isPrefixOf_false_of_not_mem (c := '<') rfl h
  simp only [unsupportedMediaMatchAt, hp, Bool.false_eq_true, if_false]

theorem actionLinkMatchAt_no_lt {s : Str} (h : '<' ∉ s) :
    actionLinkMatchAt s = none := by
  have hp : (strL "<a").isPrefixOf s = false :=
    isPrefixOf_false_of_not_mem (c := '<') rfl h
  simp only [actionLinkMatchAt, hp, Bool.false_eq_true, if_false]

theorem imgTagMatchAt_no_lt {s : Str} (h : '<' ∉ s) :
    imgTagMatchAt s = none := by
  have hp : (strL "<img").isPrefixOf s = false :=
    isPrefixOf_false_of_not_mem (c := '<') rfl h
  simp only [imgTagMatchAt, hp, Bool.false_eq_true, if_false]

theorem aOpenMatchAt_no_lt {s : Str} (h : '<' ∉ s) :
    aOpenMatchAt s = none := by
  have hp : (strL "<a").isPrefixOf s = false :=
    isPrefixOf_false_of_not_mem (c := '<') rfl h
  simp only [aOpenMatchAt, hp, Bool.false_eq_true, if_false]

theorem tgEmojiMatchAt_no_lt {s : Str} (h : '<' ∉ s) :
    tgEmojiMatchAt s = none := by
  have hp : (strL "<tg-emoji").isPrefixOf s = false :=
    isPrefixOf_false_of_not_mem (c := '<') rfl h
  simp only [tgEmojiMatchAt, hp, Bool.false_eq_true, if_false]

theorem htmlTagMatchAt_no_lt {s : Str} (h : '<' ∉ s) :
    htmlTagMatchAt s = none := by
  cases s with
  | nil => rfl
  | cons c rest =>
    have hc : c ≠ '<' := fun hc => h (hc ▸ List.mem_cons_self c rest)
    exact htmlTagMatchAt_cons_ne hc

theorem regexReplaceAux_id {m : Str → Option (Nat × Str)}
    (hm : ∀ s, '<' ∉ s → m s = none) :
    ∀ (f : Nat) (t : Str), '<' ∉ t → regexReplaceAux m f t = t := by
  intro f
  induction f with
  | zero => intro t _; exact regexReplaceAux_zero m t
  | succ f ih =>
    intro t ht
    cases t with
    | nil => rfl
    | cons c rest =>
      have hrest : '<' ∉ rest := fun hr => ht (List.mem_cons_of_mem c hr)
      simp only [regexReplaceAux, hm (c :: rest) ht]
      rw [ih rest hrest]

theorem regexReplace_id {m : Str → Option (Nat × Str)}
    (hm : ∀ s, '<' ∉ s → m s = none) {t : Str} (ht : '<' ∉ t) :
    regexReplace m t = t :=
  regexReplaceAux_id hm t.length t ht

theorem replaceSubAux_id {pat repl : Str} (hp : pat.head? = some '<') :
    ∀ (f : Nat) (t : Str), '<' ∉ t → replaceSubAux pat repl f t = t := by
  intro f
  induction f with
  | zero => intro t _; cases t <;> rfl
  | succ f ih =>
    intro t ht
    cases t with
    | nil => rfl
    | cons c rest =>
      have hrest : '<' ∉ rest := fun hr => ht (List.mem_cons_of_mem c hr)
      simp only [replaceSubAux, isPrefixOf_false_of_not_mem hp ht,
        Bool.false_eq_true, if_false]
      rw [ih rest hrest]

theorem replaceSub_id {pat repl : Str} (hp : pat.head? = some '<') {t : Str}
    (ht : '<' ∉ t) : replaceSub pat repl t = t :=
  replaceSubAux_id hp t.length t ht

theorem entities_head_amp : ∀ e ∈ entities, e.1.head? = some '&' := by decide

theorem unescapeAux_id : ∀ (f : Nat) (t : Str), '&' ∉ t →
    unescapeAux f t = t := by
  intro f
  induction f with
  | zero => intro t _; cases t <;> rfl
  | succ f ih =>
    intro t ht
    cases t with
    | nil => rfl
    | cons c rest =>
      have hrest : '&' ∉ rest := fun hr => ht (List.mem_cons_of_mem c hr)
      have hfind : entities.find? (fun e => e.1.isPrefixOf (c :: rest)) = none := by
        rw [List.find?_eq_none]
        intro e he
        rw [isPrefixOf_false_of_not_mem (entities_head_amp e he) ht]
        simp
      simp only [unescapeAux, hfind]
      rw [ih rest hrest]

theorem unescapeStr_id {t : Str} (ht : '&' ∉ t) : unescapeStr t = t :=
  unescapeAux_id t.length t ht

theorem collapseAux_cons_space {c : Char} (hc : c = ' ' ∨ c = '\t')
    (b : Bool) (r : Str) :
    collapseAux b (c :: r) =
      if b then collapseAux true r else ' ' :: collapseAux true r := by
  cases b <;> simp [collapseAux, hc]

theorem collapseAux_cons_other {c : Char} (hc : ¬(c = ' ' ∨ c = '\t'))
    (b : Bool) (r : Str) :
    collapseAux b (c :: r) = c :: collapseAux false r := by
  cases b <;> simp [collapseAux, hc]

theorem collapseAux_id : ∀ t : Str, '\t' ∉ t → t.Chain' spaceRel →
    collapseAux false t = t ∧
      (t.head? ≠ some ' ' → collapseAux true t = t) := by
  intro t
  induction t with
  | nil => exact fun _ _ => ⟨rfl, fun _ => rfl⟩
  | cons c r ih =>
    intro hnt hch
    have hct : c ≠ '\t' := fun hc => hnt (hc ▸ List.mem_cons_self c r)
    have hrt : '\t' ∉ r := fun hr => hnt (List.mem_cons_of_mem c hr)
    rw [List.chain'_cons'] at hch
    obtain ⟨hrel, hchr⟩ := hch
    have ihr := ih hrt hchr
    constructor
    · by_cases hcs : c = ' '
      · subst hcs
        have hrh : r.head? ≠ some ' ' := by
          intro hh
          exact (hrel ' ' hh) ⟨rfl, rfl⟩
        rw [collapseAux_cons_space (Or.inl rfl), if_neg (by simp),
          ihr.2 hrh]
      · rw [collapseAux_cons_other (by tauto), ihr.1]
    · intro hh
      have hcs : c ≠ ' ' := fun hc => hh (by rw [hc]; rfl)
      rw [collapseAux_cons_other (by tauto), ihr.1]

theorem collapseSpaces_id {t : Str} (hnt : '\t' ∉ t)
    (hch : t.Chain' spaceRel) : collapseSpaces t = t :=
  (collapseAux_id t hnt hch).1

theorem dropWhile_id_of_head {p : Char → Bool} {l : Str}
    (h : ∀ c, l.head? = some c → p c = false) : List.dropWhile p l = l := by
  cases l with
  | nil => rfl
  | cons c r =>
    rw [List.dropWhile_cons, h c rfl]
    simp

theorem rdropWhile_reverse_eq (p : Char → Bool) (l : Str) :
    (List.rdropWhile p l).reverse = List.dropWhile p l.reverse := by
  rw [List.rdropWhile, List.reverse_reverse]

theorem trimSpaceGo_id {t : Str} (h : Trimmed t) : trimSpaceGo t = t := by
  obtain ⟨h1, h2⟩ := h
  have hd : List.dropWhile isSpaceGo t = t := dropWhile_id_of_head h1
  have hr : (List.rdropWhile isSpaceGo t).reverse = t.reverse := by
    rw [rdropWhile_reverse_eq, dropWhile_id_of_head h2]
  unfold trimSpaceGo
  rw [hd]
  have := congrArg List.reverse hr
  simpa using this

theorem collapseAux_true_head_ne : ∀ y : Str,
    (collapseAux true y).head? ≠ some ' ' := by
  intro y
  induction y with
  | nil => simp [collapseAux]
  | cons c r ih =>
    by_cases hcs : c = ' ' ∨ c = '\t'
    · rw [collapseAux_cons_space hcs, if_pos rfl]
      exact ih
    · rw [collapseAux_cons_other hcs, List.head?_cons]
      intro hh
      have hce : c = ' ' := by injection hh
      exact hcs (Or.inl hce)

theorem collapse_noTab : ∀ (y : Str) (b : Bool), '\t' ∉ collapseAux b y := by
  intro y
  induction y with
  | nil => intro b; simp [collapseAux]
  | cons c r ih =>
    intro b
    by_cases hcs : c = ' ' ∨ c = '\t'
    · cases b with
      | true => rw [collapseAux_cons_space hcs, if_pos rfl]; exact ih true
      | false =>
        rw [collapseAux_cons_space hcs, if_neg (by simp)]
        intro hm
        rcases List.mem_cons.mp hm with hm | hm
        · cases hm
        · exact ih true hm
    · rw [collapseAux_cons_other hcs]
      intro hm
      rcases List.mem_cons.mp hm with hm | hm
      · exact hcs (Or.inr hm.symm) |>.elim
      · exact ih false hm

theorem collapse_chain : ∀ (y : Str) (b : Bool),
    (collapseAux b y).Chain' spaceRel := by
  intro y
  induction y with
  | nil => intro b; simp [collapseAux]
  | cons c r ih =>
    intro b
    by_cases hcs : c = ' ' ∨ c = '\t'
    · cases b with
      | true => rw [collapseAux_cons_space hcs, if_pos rfl]; exact ih true
      | false =>
        rw [collapseAux_cons_space hcs, if_neg (by simp), List.chain'_cons']
        refine ⟨fun y hy => ?_, ih true⟩
        intro hcon
        exact collapseAux_true_head_ne r (by rw [hy, hcon.2])
    · rw [collapseAux_cons_other hcs, List.chain'_cons']
      refine ⟨fun y hy => ?_, ih false⟩
      intro hcon
      exact hcs (Or.inl hcon.1)

theorem trim_within (t : Str) : trimSpaceGo t <:+: t := by
  have h1 : trimSpaceGo t <+: List.dropWhile isSpaceGo t := by
    unfold trimSpaceGo
    exact List.rdropWhile_prefix isSpaceGo _
  have h2 : List.dropWhile isSpaceGo t <:+ t := List.dropWhile_suffix isSpaceGo
  exact List.IsInfix.trans ( List.IsPrefix.isInfix h1) ( List.IsSuffix.isInfix h2)

theorem cleanContent_collapsed (s : Str) : Collapsed (CleanContent s) := by
  unfold CleanContent
  generalize unescapeStr (strippedContent s) = v
  have hin := trim_within (collapseSpaces v)
  constructor
  · intro hm
    exact collapse_noTab v false (hin.subset hm)
  · exact List.Chain'.infix (collapse_chain v false) hin

theorem prefix_head {l1 l2 : Str} {c : Char} (h : l1 <+: l2)
    (hh : l1.head? = some c) : l2.head? = some c := by
  obtain ⟨tl, rfl⟩ := h
  cases l1 with
  | nil => cases hh
  | cons a r => simpa using hh

theorem dropWhile_head_false (p : Char → Bool) : ∀ (l : Str) (c : Char),
    (List.dropWhile p l).head? = some c → p c = false := by
  intro l
  induction l with
  | nil => intro c h; cases h
  | cons a r ih =>
    intro c h
    rw [List.dropWhile_cons] at h
    by_cases hp : p a
    · rw [if_pos hp] at h
      exact ih c h
    · rw [if_neg hp] at h
      have : a = c := by injection h
      subst this
      simpa using hp

theorem trimmed_trimSpaceGo (y : Str) : Trimmed (trimSpaceGo y) := by
  constructor
  · intro c hc
    have hpre : trimSpaceGo y <+: List.dropWhile isSpaceGo y := by
      unfold trimSpaceGo
      exact List.rdropWhile_prefix isSpaceGo _
    exact dropWhile_head_false isSpaceGo y c (prefix_head hpre hc)
  · intro c hc
    unfold trimSpaceGo at hc
    rw [rdropWhile_reverse_eq] at hc
    exact dropWhile_head_false isSpaceGo _ c hc

theorem cleanContent_trimmed (s : Str) : Trimmed (CleanContent s) := by
  unfold CleanContent
  exact trimmed_trimSpaceGo _

theorem cleanContent_fixed {t : Str} (h1 : '<' ∉ t) (h2 : '&' ∉ t)
    (hnt : '\t' ∉ t) (hch : t.Chain' spaceRel) (htr : Trimmed t) :
    CleanContent t = t := by
  have e1 : regexReplace unsupportedMediaMatchAt t = t :=
    regexReplace_id (fun _ => unsupportedMediaMatchAt_no_lt) h1
  have e2 : regexReplace actionLinkMatchAt t = t :=
    regexReplace_id (fun _ => actionLinkMatchAt_no_lt) h1
  have e3 : replaceSub (strL "<br/>") (strL "\n") t = t := replaceSub_id (by rfl) h1
  have e4 : replaceSub (strL "<br>") (strL "\n") t = t := replaceSub_id (by rfl) h1
  have e5 : regexReplace imgTagMatchAt t = t :=
    regexReplace_id (fun _ => imgTagMatchAt_no_lt) h1
  have e6 : regexReplace aOpenMatchAt t = t :=
    regexReplace_id (fun _ => aOpenMatchAt_no_lt) h1
  have e7 : replaceSub (strL "</a>") [] t = t := replaceSub_id (by rfl) h1
  have e8 : regexReplace tgEmojiMatchAt t = t :=
    regexReplace_id (fun _ => tgEmojiMatchAt_no_lt) h1
  have e9 : regexReplace htmlTagMatchAt t = t :=
    regexReplace_id (fun _ => htmlTagMatchAt_no_lt) h1
  have hpre : preStripped t = t := by
    simp only [preStripped]
    rw [e1, e2, e3, e4, e5, e6, e7, e8]
  have hstr : strippedContent t = t := by
    simp only [strippedContent]
    rw [hpre, e9]
  unfold CleanContent
  rw [hstr, unescapeStr_id h2, collapseSpaces_id hnt hch, trimSpaceGo_id htr]

theorem cleanContent_hiThere :
    CleanContent (strL "<b>hi there</b>") = strL "hi there" := by decide

/-- Claim C5: once the tag-stripping stage has run, the text entering the
entity-unescaping stage contains no match of any markup pattern anywhere:
no generic element tag, hence also no unsupported-media block, no action
link and no image tag; and CleanContent is exactly the unescape, whitespace
collapse and trim of that tag-free text, so angle brackets can reappear in
the final output only through entity decoding. -/
theorem claim_C5 (s : Str) :
    anyMatch htmlTagMatchAt (strippedContent s) = false ∧
      anyMatch unsupportedMediaMatchAt (strippedContent s) = false ∧
      anyMatch actionLinkMatchAt (strippedContent s) = false ∧
      anyMatch imgTagMatchAt (strippedContent s) = false ∧
      CleanContent s =
        trimSpaceGo (collapseSpaces (unescapeStr (strippedContent s))) := by
  unfold CleanContent strippedContent
  generalize preStripped s = u
  have htag := anyMatch_of_bracketOK (bracketOK_regexReplace u)
  exact ⟨htag, anyMatch_mono unsupported_implies_tag _ htag,
    anyMatch_mono actionLink_implies_tag _ htag,
    anyMatch_mono imgTag_implies_tag _ htag, rfl⟩

/-- Claim C1: because entity-unescaping is the last rewrite stage after
tag-stripping, entity-escaped text survives as literal characters: on the
input from the spec scenario the output of CleanContent contains the literal
text `<div>Test</div> & "quotes"`. -/
theorem claim_C1 :
    containsSub
      (CleanContent
        (strL "<div>&lt;div&gt;Test&lt;/div&gt; &amp; &quot;quotes&quot;</div>"))
      (strL "<div>Test</div> & \"quotes\"") =
      true := by
  decide

/-- Claim C2 counterexample: the output of CleanContent on
`&lt;b&gt;x&lt;/b&gt;` is `<b>x</b>`, which contains no horizontal
whitespace at all (so it is trivially already collapsed), yet running
CleanContent on it again yields `x`: the reconstructed tags are stripped on
the second pass, so the output is not a fixed point. -/
theorem claim_C2_counterexample :
    (CleanContent (strL "&lt;b&gt;x&lt;/b&gt;")).all
        (fun c => !(c == ' ') && !(c == '\t')) = true ∧
      CleanContent (CleanContent (strL "&lt;b&gt;x&lt;/b&gt;")) ≠
        CleanContent (strL "&lt;b&gt;x&lt;/b&gt;") := by
  decide

/-- Claim C6 counterexample: the unsupported-media regexp is lazy, so it
deletes only up to the first `</div>`; text of a later descendant of the
wrapper survives into the output, refuting removal of the entire subtree. -/
theorem claim_C6_counterexample :
    containsSub
        (CleanContent
          (strL "<div class=\"message_media_not_supported\"><div>X</div><div>Please open</div></div>Some text"))
        (strL "Please open") =
        true ∧
      CleanContent
          (strL "<div class=\"message_media_not_supported\"><div>X</div><div>Please open</div></div>Some text") ≠
        strL "Some text" := by
  decide

/-- Claim C6 amended: the unsupported-media stage removes the wrapper's
opening tag together with the content up to and including the first
following `</div>` (not necessarily the whole subtree); on the spec's
scenario input the final output is exactly "Some text". -/
theorem claim_C6_amended :
    regexReplace unsupportedMediaMatchAt
        (strL "<div class=\"message_media_not_supported\"><div class=\"message_media_not_supported_label\">Please open Telegram</div></div>Some text") =
      strL "</div>Some text" ∧
      CleanContent
          (strL "<div class=\"message_media_not_supported\"><div class=\"message_media_not_supported_label\">Please open Telegram</div></div>Some text") =
        strL "Some text" := by
  decide

/-- Claim C10: exactly the two lowercase spellings `<br/>` and `<br>` are
rewritten to newlines; `<br />` and `<BR>` fall through to the generic
tag-stripping stage and leave no newline behind. -/
theorem claim_C10 :
    CleanContent (strL "a<br/>b") = strL "a\nb" ∧
      CleanContent (strL "a<br>b") = strL "a\nb" ∧
      CleanContent (strL "a<br />b") = strL "ab" ∧
      CleanContent (strL "a<BR>b") = strL "ab" := by
  decide

theorem firstSome_some {α β : Type} {f : α → Option β} {l : List α} {b : β}
    (h : firstSome f l = some b) : ∃ a ∈ l, f a = some b := by
  induction l with
  | nil => cases h
  | cons a rest ih =>
    simp only [firstSome] at h
    cases hfa : f a with
    | some b2 =>
      rw [hfa] at h
      simp at h
      exact ⟨a, List.mem_cons_self a rest, by rw [hfa, h]⟩
    | none =>
      rw [hfa] at h
      simp at h
      obtain ⟨a2, ha2, hfa2⟩ := ih h
      exact ⟨a2, List.mem_cons_of_mem a ha2, hfa2⟩

theorem imgSrcMatchAt_nil : imgSrcMatchAt [] = none := by decide

theorem imgSrcMatchAt_some {s : Str} {len : Nat} {url : Str}
    (h : imgSrcMatchAt s = some (len, url)) : url ≠ [] ∧ 1 ≤ len := by
  simp only [imgSrcMatchAt] at h
  split at h
  case isFalse => cases h
  case isTrue hp =>
    obtain ⟨o, _, hfo⟩ := firstSome_some h
    split at hfo
    case h_1 => cases hfo
    case h_2 q hq =>
      split at hfo
      case isTrue => cases hfo
      case isFalse hq0 =>
        have hqlen := idxOf_lt_length hq
        obtain ⟨h1, h2⟩ := Prod.mk.injEq .. ▸ Option.some.inj hfo
        constructor
        · rw [← h2]
          intro hnil
          rcases List.take_eq_nil_iff.mp hnil with h0 | h0
          · exact hq0 h0
          · rw [h0] at hqlen
            simp at hqlen
        · omega

theorem extractImagesAux_zero (s : Str) : extractImagesAux 0 s = [] := by
  cases s <;> rfl

theorem extractImages_ne_nil : ∀ (f : Nat) (s u : Str),
    u ∈ extractImagesAux f s → u ≠ [] := by
  intro f
  induction f with
  | zero =>
    intro s u hu
    rw [extractImagesAux_zero] at hu
    cases hu
  | succ f ih =>
    intro s u hu
    cases s with
    | nil => cases hu
    | cons c rest =>
      cases h : imgSrcMatchAt (c :: rest) with
      | none =>
        rw [show extractImagesAux (f + 1) (c :: rest) = extractImagesAux f rest
          from by simp [extractImagesAux, h]] at hu
        exact ih rest u hu
      | some pr =>
        obtain ⟨len, url⟩ := pr
        rw [show extractImagesAux (f + 1) (c :: rest) =
            url :: extractImagesAux f ((c :: rest).drop len)
          from by simp [extractImagesAux, h]] at hu
        rcases List.mem_cons.mp hu with rfl | hu2
        · exact (imgSrcMatchAt_some h).1
        · exact ih _ u hu2

theorem extract_aux_full : ∀ (f : Nat) (s : Str), s.length ≤ f →
    ∃ pls : List (Nat × Nat),
      pls.Chain' (fun a b => a.1 + a.2 ≤ b.1) ∧
      (pls.map Prod.fst).Pairwise (· < ·) ∧
      List.Forall₂ (fun pl u => imgSrcMatchAt (s.drop pl.1) = some (pl.2, u))
        pls (extractImagesAux f s) ∧
      (∀ q : Nat, (imgSrcMatchAt (s.drop q)).isSome = true →
        ∃ pl ∈ pls, pl.1 ≤ q ∧ q < pl.1 + pl.2) := by
  intro f
  induction f with
  | zero =>
    intro s hlen
    have hs0 : s = [] := List.length_eq_zero.mp (Nat.le_zero.mp hlen)
    subst hs0
    rw [extractImagesAux_zero]
    refine ⟨[], List.chain'_nil, List.Pairwise.nil, List.Forall₂.nil, ?_⟩
    intro q hq
    rw [List.drop_nil, imgSrcMatchAt_nil] at hq
    cases hq
  | succ f ih =>
    intro s hlen
    cases s with
    | nil =>
      refine ⟨[], List.chain'_nil, List.Pairwise.nil, List.Forall₂.nil, ?_⟩
      intro q hq
      rw [List.drop_nil, imgSrcMatchAt_nil] at hq
      cases hq
    | cons c rest =>
      have hrlen : rest.length ≤ f := by
        simp only [List.length_cons] at hlen
        omega
      cases h : imgSrcMatchAt (c :: rest) with
      | none =>
        obtain ⟨pls, hch, hpw, hf2, hcover⟩ := ih rest hrlen
        refine ⟨pls.map (fun pl => (pl.1 + 1, pl.2)), ?_, ?_, ?_, ?_⟩
        · rw [List.chain'_map]
          exact hch.imp (fun a b hab => by omega)
        · rw [List.map_map, List.pairwise_map]
          rw [List.pairwise_map] at hpw
          refine hpw.imp ?_
          intro a b hab
          dsimp only [Function.comp]
          omega
        · rw [show extractImagesAux (f + 1) (c :: rest) = extractImagesAux f rest
            from by simp [extractImagesAux, h]]
          rw [List.forall₂_map_left_iff]
          exact hf2.imp (fun a b hab => hab)
        · intro q hq
          cases q with
          | zero =>
            rw [List.drop_zero, h] at hq
            cases hq
          | succ q2 =>
            have hq2 : (imgSrcMatchAt (rest.drop q2)).isSome = true := hq
            obtain ⟨pl, hmem, hle, hlt⟩ := hcover q2 hq2
            refine ⟨(pl.1 + 1, pl.2), List.mem_map_of_mem _ hmem, ?_, ?_⟩ <;>
              dsimp only <;> omega
      | some pr =>
        obtain ⟨len, url⟩ := pr
        have hlen1 : 1 ≤ len := (imgSrcMatchAt_some h).2
        have hdlen : ((c :: rest).drop len).length ≤ f := by
          simp only [List.length_drop, List.length_cons] at hlen ⊢
          omega
        obtain ⟨pls, hch, hpw, hf2, hcover⟩ := ih ((c :: rest).drop len) hdlen
        refine ⟨(0, len) :: pls.map (fun pl => (pl.1 + len, pl.2)), ?_, ?_, ?_, ?_⟩
        · rw [List.chain'_cons']
          constructor
          · intro y hy
            rw [List.head?_map] at hy
            rw [Option.mem_def, Option.map_eq_some'] at hy
            obtain ⟨pl, _, rfl⟩ := hy
            dsimp only
            omega
          · rw [List.chain'_map]
            exact hch.imp (fun a b hab => by omega)
        · rw [List.map_cons, List.map_map, List.pairwise_cons]
          constructor
          · intro b hb
            rw [List.mem_map] at hb
            obtain ⟨pl, _, rfl⟩ := hb
            dsimp only [Function.comp]
            omega
          · rw [List.pairwise_map]
            rw [List.pairwise_map] at hpw
            refine hpw.imp ?_
            intro a b hab
            dsimp only [Function.comp]
            omega
        · rw [show extractImagesAux (f + 1) (c :: rest) =
              url :: extractImagesAux f ((c :: rest).drop len)
            from by simp [extractImagesAux, h]]
          refine List.Forall₂.cons ?_ ?_
          · rw [List.drop_zero]
            exact h
          · rw [List.forall₂_map_left_iff]
            refine hf2.imp ?_
            intro pl u hpl
            rw [List.drop_drop, Nat.add_comm len pl.1] at hpl
            exact hpl
        · intro q hq
          by_cases hql : q < len
          · refine ⟨(0, len), List.mem_cons_self _ _, ?_, ?_⟩ <;>
              dsimp only <;> omega
          · push_neg at hql
            have hq2 : (imgSrcMatchAt (((c :: rest).drop len).drop (q - len))).isSome
                = true := by
              rw [List.drop_drop]
              have heq : len + (q - len) = q := by omega
              rw [heq]
              exact hq
            obtain ⟨pl, hmem, hle, hlt⟩ := hcover (q - len) hq2
            refine ⟨(pl.1 + len, pl.2),
              List.mem_cons_of_mem _ (List.mem_map_of_mem _ hmem), ?_, ?_⟩ <;>
              dsimp only <;> omega

theorem extract_aux_none : ∀ (f : Nat) (s : Str), s.length ≤ f →
    extractImagesAux f s = [] → ∀ p : Nat, imgSrcMatchAt (s.drop p) = none := by
  intro f
  induction f with
  | zero =>
    intro s hlen _ p
    have hs0 : s = [] := List.length_eq_zero.mp (Nat.le_zero.mp hlen)
    subst hs0
    rw [List.drop_nil]
    exact imgSrcMatchAt_nil
  | succ f ih =>
    intro s hlen h0 p
    cases s with
    | nil =>
      rw [List.drop_nil]
      exact imgSrcMatchAt_nil
    | cons c rest =>
      cases h : imgSrcMatchAt (c :: rest) with
      | some pr =>
        obtain ⟨len, url⟩ := pr
        rw [show extractImagesAux (f + 1) (c :: rest) =
            url :: extractImagesAux f ((c :: rest).drop len)
          from by simp [extractImagesAux, h]] at h0
        cases h0
      | none =>
        cases p with
        | zero =>
          rw [List.drop_zero]
          exact h
        | succ p2 =>
          rw [show extractImagesAux (f + 1) (c :: rest) = extractImagesAux f rest
            from by simp [extractImagesAux, h]] at h0
          have hr : rest.length ≤ f := by
            simp only [List.length_cons] at hlen
            omega
          exact ih rest hr h0 p2

theorem extract_aux_empty : ∀ (f : Nat) (s : Str),
    (∀ p : Nat, imgSrcMatchAt (s.drop p) = none) → extractImagesAux f s = [] := by
  intro f
  induction f with
  | zero => intro s _; exact extractImagesAux_zero s
  | succ f ih =>
    intro s hp
    cases s with
    | nil => rfl
    | cons c rest =>
      have h0 : imgSrcMatchAt (c :: rest) = none := by
        have := hp 0
        rwa [List.drop_zero] at this
      rw [show extractImagesAux (f + 1) (c :: rest) = extractImagesAux f rest
        from by simp [extractImagesAux, h0]]
      exact ih rest (fun p => hp (p + 1))

/-- Claim C7: ExtractImages is exactly the left-to-right sequence of image
matches: there is a list of non-overlapping match intervals at strictly
increasing positions whose captured src values are, in order and one for
one, the output list, and every position of the input where an image match
starts lies inside one of those intervals — so no match is dropped and
equal URLs are kept once per occurrence (the concrete two-occurrence input
evaluates to the duplicated output); the output is empty exactly when no
position has a match. -/
theorem claim_C7 (s : Str) :
    (∃ pls : List (Nat × Nat),
      pls.Chain' (fun a b => a.1 + a.2 ≤ b.1) ∧
      (pls.map Prod.fst).Pairwise (· < ·) ∧
      List.Forall₂ (fun pl u => imgSrcMatchAt (s.drop pl.1) = some (pl.2, u))
        pls (ExtractImages s) ∧
      (∀ q : Nat, (imgSrcMatchAt (s.drop q)).isSome = true →
        ∃ pl ∈ pls, pl.1 ≤ q ∧ q < pl.1 + pl.2)) ∧
      (ExtractImages s = [] ↔ ∀ p : Nat, imgSrcMatchAt (s.drop p) = none) ∧
      ExtractImages (strL "<img src=\"u\"/>x<img src=\"u\"/>") =
        [strL "u", strL "u"] := by
  refine ⟨?_, ⟨?_, ?_⟩, by decide⟩
  · unfold ExtractImages
    exact extract_aux_full s.length s le_rfl
  · intro h0 p
    unfold ExtractImages at h0
    exact extract_aux_none s.length s le_rfl h0 p
  · intro hp
    unfold ExtractImages
    exact extract_aux_empty s.length s hp

/-- Claim C9: ExtractImages never returns an empty URL: the capture group
needs at least one character, so an image element with an empty or missing
src attribute contributes nothing, while surrounding image elements are
still captured (on the concrete input the empty-src element is skipped and
its neighbours are both returned). -/
theorem claim_C9 :
    (∀ s u : Str, u ∈ ExtractImages s → u ≠ []) ∧
      ExtractImages (strL "<img src=\"a\"/><img src=\"\"/><img src=\"b\"/>") =
        [strL "a", strL "b"] := by
  constructor
  · intro s u hu
    unfold ExtractImages at hu
    exact extractImages_ne_nil s.length s u hu
  · decide

/-- Claim C9 witness: the first returned URL of the concrete input is a
member of the output and, by the theorem, nonempty. -/
theorem claim_C9_witness :
    strL "a" ∈ ExtractImages (strL "<img src=\"a\"/><img src=\"\"/><img src=\"b\"/>") ∧
      strL "a" ≠ [] :=
  ⟨by decide, claim_C9.1
    (strL "<img src=\"a\"/><img src=\"\"/><img src=\"b\"/>") (strL "a")
    (by decide)⟩

/-- Claim C3: on a successfully decoded feed, GetPosts returns exactly one
Post per item, in the same order and count, each derived from that item
and the channel name (link, cleaned content, extracted images, parsed
date); no item is dropped. -/
theorem claim_C3 (name : Str) (ch : Channel) :
    ∃ posts : List Post, GetPosts name (Except.ok ch) = Except.ok posts ∧
      posts.length = ch.items.length ∧
      ∀ i : Nat, posts[i]? = (ch.items[i]?).map (fun it =>
        Post.mk it.link (CleanContent it.description)
          (ExtractImages it.description) it.parsedDate name) := by
  refine ⟨ch.items.map (postOfItem name), rfl, by simp, ?_⟩
  intro i
  rw [List.getElem?_map]
  cases ch.items[i]? with
  | none => rfl
  | some it => rfl

/-- Claim C4: an item whose pubDate is empty or fails to parse under the
single fixed RFC1123Z layout keeps the zero (absent) timestamp, the whole
parse still succeeds, and every other item is still processed by the same
per-item date fill; no alternate date format exists in the definition. -/
theorem claim_C4 (rss : RSS) (i : Nat) (it : Item)
    (hit : rss.channel.items[i]? = some it) (hzero : it.parsedDate = none)
    (hbad : it.pubDate = [] ∨ goTimeParseRFC1123Z it.pubDate = none) :
    ∃ ch : Channel, parse (Except.ok rss) = Except.ok ch ∧
      ch.items.length = rss.channel.items.length ∧
      (∀ j : Nat, ch.items[j]? = (rss.channel.items[j]?).map fillItem) ∧
      (ch.items[i]?).map Item.parsedDate = some none := by
  have hfi : (fillItem it).parsedDate = none := by
    unfold fillItem
    rcases hbad with hemp | hparse
    · rw [if_neg (by simp [hemp])]
      exact hzero
    · by_cases hne : it.pubDate ≠ []
      · rw [if_pos hne, hparse]
        exact hzero
      · rw [if_neg hne]
        exact hzero
  refine ⟨{ rss.channel with items := rss.channel.items.map fillItem },
    rfl, by simp, fun j => List.getElem?_map .., ?_⟩
  simp only [List.getElem?_map, hit, Option.map_some']
  rw [hfi]

/-- Claim C4 witness: a concrete one-item feed whose pubDate does not parse
still decodes, and the item's timestamp is the zero value. -/
theorem claim_C4_witness :
    ∃ ch : Channel,
      parse (Except.ok ⟨⟨strL "T", strL "L", strL "D",
        [⟨strL "t", strL "l", strL "d", strL "not-a-date", none⟩]⟩⟩) =
        Except.ok ch ∧
      ch.items.length =
        (RSS.mk (Channel.mk (strL "T") (strL "L") (strL "D")
          [⟨strL "t", strL "l", strL "d", strL "not-a-date", none⟩])).channel.items.length ∧
      (∀ j : Nat, ch.items[j]? =
        ((RSS.mk (Channel.mk (strL "T") (strL "L") (strL "D")
          [⟨strL "t", strL "l", strL "d", strL "not-a-date", none⟩])).channel.items[j]?).map
          fillItem) ∧
      (ch.items[0]?).map Item.parsedDate = some none :=
  claim_C4 _ 0 _ rfl rfl (Or.inr (by decide))

theorem msg_take11_fetch :
    11 ≤ (strL "failed to fetch URL: ").length := by decide

theorem msg_take11_decode :
    11 ≤ (strL "failed to decode XML: ").length := by decide

/-- Claim C8 counterexample: HTTP status 201 is in the success class
(2xx), and the decoder accepts the body (so the body is well-formed for
this decoder), yet ParseURL fails with the fetch-kind "HTTP error"
message: the code fails on every status other than 200, not only on
non-success statuses. -/
theorem claim_C8_counterexample :
    (200 ≤ 201 ∧ 201 < 300) ∧
      (fun _ => Except.ok (⟨⟨[], [], [], []⟩⟩ : RSS) : Str → Except Str RSS)
          [] = Except.ok ⟨⟨[], [], [], []⟩⟩ ∧
      ParseURL (fun _ => Except.ok (⟨⟨[], [], [], []⟩⟩ : RSS))
          (Except.ok ⟨201, []⟩) =
        Except.error (strL "HTTP error: " ++ strL (Nat.repr 201)) :=
  ⟨⟨by decide, by decide⟩, rfl, rfl⟩

/-- Claim C8 amended: ParseURL fails with the fetch-kind error exactly when
the address is unreachable or the HTTP status is not 200 (any other
status, including other 2xx success statuses, is rejected), fails with the
decode-kind error exactly when the decoder rejects the body of a 200
response, and succeeds otherwise; the fetch-kind and decode-kind error
messages are disjoint, so the caller can distinguish them, and a failure
carries no partial channel. -/
theorem claim_C8_amended (dec : Str → Except Str RSS) (resp : HTTPResponse)
    (e : Str) :
    ParseURL dec (Except.error e) =
        Except.error (strL "failed to fetch URL: " ++ e) ∧
      (resp.status ≠ 200 → ParseURL dec (Except.ok resp) =
        Except.error (strL "HTTP error: " ++ strL (Nat.repr resp.status))) ∧
      (∀ e2, resp.status = 200 → dec resp.body = Except.error e2 →
        ParseURL dec (Except.ok resp) =
          Except.error (strL "failed to decode XML: " ++ e2)) ∧
      (∀ rss, resp.status = 200 → dec resp.body = Except.ok rss →
        ParseURL dec (Except.ok resp) = Except.ok
          { rss.channel with items := rss.channel.items.map fillItem }) ∧
      (∀ e1 e2 : Str, strL "failed to fetch URL: " ++ e1 ≠
        strL "failed to decode XML: " ++ e2) ∧
      (∀ (n : Nat) (e2 : Str), strL "HTTP error: " ++ strL (Nat.repr n) ≠
        strL "failed to decode XML: " ++ e2) := by
  refine ⟨rfl, ?_, ?_, ?_, ?_, ?_⟩
  · intro hs
    simp only [ParseURL, if_neg hs]
  · intro e2 hs hdec
    simp only [ParseURL, if_pos hs, hdec]
    rfl
  · intro rss hs hdec
    simp only [ParseURL, if_pos hs, hdec]
    rfl
  · intro e1 e2 hne
    have h11 := congrArg (List.take 11) hne
    rw [List.take_append_of_le_length msg_take11_fetch,
      List.take_append_of_le_length msg_take11_decode] at h11
    exact absurd h11 (by decide)
  · intro n e2 hne
    have h1 := congrArg List.head? hne
    rw [show (strL "HTTP error: " ++ strL (Nat.repr n)).head? = some 'H' from rfl,
      show (strL "failed to decode XML: " ++ e2).head? = some 'f' from rfl] at h1
    cases h1

/-- Claim C8 witness: a 404 response yields exactly the fetch-kind HTTP
error message. -/
theorem claim_C8_witness :
    ParseURL (fun _ => Except.ok (⟨⟨[], [], [], []⟩⟩ : RSS))
        (Except.ok ⟨404, []⟩) =
      Except.error (strL "HTTP error: " ++ strL (Nat.repr 404)) :=
  (claim_C8_amended (fun _ => Except.ok ⟨⟨[], [], [], []⟩⟩) ⟨404, []⟩ []).2.1
    (by decide)

attribute [irreducible] CleanContent

/-- Claim C2 amended: CleanContent is not idempotent in general (see the
counterexample: reconstructed entities re-enter the pipeline), but any
string containing no '<' and no '&' that is already whitespace-collapsed
and trimmed is a fixed point; since every CleanContent output is collapsed
and trimmed, CleanContent (CleanContent s) = CleanContent s holds whenever
the output of CleanContent contains no '<' and no '&' character. -/
theorem claim_C2_amended (s : Str) (h1 : '<' ∉ CleanContent s)
    (h2 : '&' ∉ CleanContent s) :
    CleanContent (CleanContent s) = CleanContent s := by
  have hco : Collapsed (CleanContent s) := cleanContent_collapsed s
  have htr : Trimmed (CleanContent s) := cleanContent_trimmed s
  exact cleanContent_fixed h1 h2 hco.noTab hco.chain htr

/-- Claim C2 witness: a concrete instance of the amended fixed-point
property, with the hypotheses checked by evaluation. -/
theorem claim_C2_witness :
    CleanContent (CleanContent (strL "<b>hi there</b>")) =
      CleanContent (strL "<b>hi there</b>") :=
  claim_C2_amended (strL "<b>hi there</b>")
    (by rw [cleanContent_hiThere]; decide)
    (by rw [cleanContent_hiThere]; decide)

end EP
